import Mathlib

/-
  Verification of the generalized Karmarkar-Karp (largest-differencing)
  partitioning solver of prtpy (`partitioning/kk.py`) against its
  natural-language specification.

  The solver `kk` is translated from `kk.py`.  The `Bins` partition state it
  manipulates (the class is not among the provided sources; only its caller
  is) is modelled from the specification of the partition/bin operations.
  Python's `heapq` is modelled abstractly: the heap is the list of live
  entries, a push appends the new entry, and a pop removes the entry that is
  minimal in the lexicographic tuple order - which is exactly the element
  `heapq.heappop` returns, and is unique whenever no two entries share both
  key and sequence number.
-/

namespace KK

/-- Modelled from the spec: the `Bins` partition state (the Bins class itself
is not part of the provided sources, which contain only its callers).  It is a
fixed count of bins, the ordered list of bins - each an ordered list of
items - and the index-aligned list of cached bin sums. -/
structure Bins (α : Type) where
  num : Nat
  bins : List (List α)
  sums : List Int
deriving DecidableEq

variable {α : Type}

/-- Modelled from the spec: `create_empty(K)` yields a partition with K empty
bins and all sums zero.  The spec also makes `create_empty` fail for K ≤ 0
(an InvalidConfiguration); that failure path is not modelled here, so every
result below about a solver call is stated under `1 ≤ K`, where the two
behaviours agree. -/
def Bins.create_empty (K : Nat) : Bins α :=
  ⟨K, List.replicate K [], List.replicate K 0⟩

/-- Modelled from the spec: `add_item` appends the item to the bin at
`bin_index` and increases that bin's cached sum by `valueof item`. -/
def Bins.add_item_to_bin (b : Bins α) (valueof : α → Int) (item : α)
    (bin_index : Nat) : Bins α :=
  { b with
    bins := b.bins.set bin_index (b.bins.getD bin_index [] ++ [item]),
    sums := b.sums.set bin_index (b.sums.getD bin_index 0 + valueof item) }

/-- Modelled from the spec: `combine_bins` appends all items (and the sum) of
the other partition's bin `other_ibin` onto this partition's bin `ibin`. -/
def Bins.combine_bins (b : Bins α) (ibin : Nat) (other : Bins α)
    (other_ibin : Nat) : Bins α :=
  { b with
    bins := b.bins.set ibin (b.bins.getD ibin [] ++ other.bins.getD other_ibin []),
    sums := b.sums.set ibin (b.sums.getD ibin 0 + other.sums.getD other_ibin 0) }

/-- Stable insertion into a list of (sum, bin) pairs ordered by sum. -/
def insertPair (p : Int × List α) : List (Int × List α) → List (Int × List α)
  | [] => [p]
  | q :: rest => if p.1 ≤ q.1 then p :: q :: rest else q :: insertPair p rest

/-- Stable sort of (sum, bin) pairs by ascending sum. -/
def sortPairs : List (Int × List α) → List (Int × List α)
  | [] => []
  | p :: rest => insertPair p (sortPairs rest)

/-- Modelled from the spec: `sort` reorders the bins into ascending order of
sum; each cached sum travels together with its bin. -/
def Bins.sort (b : Bins α) : Bins α :=
  let sorted := sortPairs (b.sums.zip b.bins)
  { b with bins := sorted.map Prod.snd, sums := sorted.map Prod.fst }

/-- A heap entry mirrors the tuple pushed in `kk.py`: (priority key, sequence
number from the monotone counter, partition, snapshot of its sums). -/
structure HeapEntry (α : Type) where
  key : Int
  seq : Nat
  part : Bins α
  snap : List Int
deriving DecidableEq

/-- Strict lexicographic order on (key, sequence number). -/
def entryLt (x y : HeapEntry α) : Prop :=
  x.key < y.key ∨ (x.key = y.key ∧ x.seq < y.seq)

/-- Reflexive lexicographic order on (key, sequence number). -/
def entryLe (x y : HeapEntry α) : Prop :=
  x.key < y.key ∨ (x.key = y.key ∧ x.seq ≤ y.seq)

instance (x y : HeapEntry α) : Decidable (entryLt x y) := by
  unfold entryLt; infer_instance

instance (x y : HeapEntry α) : Decidable (entryLe x y) := by
  unfold entryLe; infer_instance

/-- The minimal entry (in tuple order) among `e` and the entries of the list;
ties keep the earlier candidate, though reachable heaps never tie. -/
def heapMin (e : HeapEntry α) : List (HeapEntry α) → HeapEntry α
  | [] => e
  | f :: rest => heapMin (if entryLt f e then f else e) rest

/-- Pop of the abstract heap: remove and return the minimal entry in
lexicographic tuple order, as `heapq.heappop` does. -/
def heapPop [DecidableEq α] (h : List (HeapEntry α)) : Option (HeapEntry α × List (HeapEntry α)) :=
  match h with
  | [] => none
  | e :: rest =>
    let m := heapMin e rest
    some (m, (e :: rest).erase m)

/-- Python's `max` over a list: undefined (error) on the empty list. -/
def listMax : List Int → Option Int
  | [] => none
  | x :: xs => some (xs.foldl max x)

/-- Python's `min` over a list: undefined (error) on the empty list. -/
def listMin : List Int → Option Int
  | [] => none
  | x :: xs => some (xs.foldl min x)

/-- Failures the run of `kk` can surface, plus the error names the spec
assigns to rejected inputs (which `kk` itself never raises). -/
inductive KKErr where
  | emptyInput
  | invalidConfiguration
  | heapUnderflow
  | emptySequence
  | indexError
deriving DecidableEq

/-- The inner combine loop of `kk.py`: for i in range(K), destructively
`bin1.combine_bins(ibin = K - i - 1, other_bin = bin2, other_ibin = i)`. -/
def combineAll (K : Nat) (b1 b2 : Bins α) : Bins α :=
  (List.range K).foldl (fun acc i => acc.combine_bins (K - i - 1) b2 i) b1

/-- Prefix of the combine loop: only the first `m` of the `K` iterations. -/
def combineSteps (K : Nat) (b1 b2 : Bins α) (m : Nat) : Bins α :=
  (List.range m).foldl (fun acc i => acc.combine_bins (K - i - 1) b2 i) b1

/-- One merge of two partitions as performed by the loop body of `kk.py`:
combine all K bin pairs largest-with-smallest, then re-sort by sum. -/
def mergePartitions (K : Nat) (p q : Bins α) : Bins α :=
  (combineAll K p q).sort

/-- One iteration of the merge loop of `kk.py`: pop twice, merge, compute the
spread objective, push the merged entry keyed by the negated spread. -/
def kkStep [DecidableEq α] (K : Nat) (h : List (HeapEntry α)) (c : Nat) :
    Except KKErr (List (HeapEntry α) × Nat) :=
  match heapPop h with
  | none => .error .heapUnderflow
  | some (e1, t1) =>
    match heapPop t1 with
    | none => .error .heapUnderflow
    | some (e2, t2) =>
      match listMax (mergePartitions K e1.part e2.part).sums,
            listMin (mergePartitions K e1.part e2.part).sums with
      | some mx, some mn =>
        .ok (t2 ++ [⟨-(mx - mn), c, mergePartitions K e1.part e2.part,
                    (mergePartitions K e1.part e2.part).sums⟩], c + 1)
      | _, _ => .error .emptySequence

/-- Iterate the merge loop a given number of times, threading the heap and the
push counter. -/
def kkIter [DecidableEq α] (K : Nat) : Nat → List (HeapEntry α) × Nat →
    Except KKErr (List (HeapEntry α) × Nat)
  | 0, st => .ok st
  | k + 1, st =>
    match kkStep K st.1 st.2 with
    | .error e => .error e
    | .ok st' => kkIter K k st'

/-- The entry the seeding loop pushes for item `x` with counter value `i`:
a one-item partition holding `x` in the last bin, keyed by `-(valueof x)`. -/
def seedEntry (b : Bins α) (valueof : α → Int) (i : Nat) (x : α) : HeapEntry α :=
  let nb := b.add_item_to_bin valueof x (b.num - 1)
  ⟨-(valueof x), i, nb, nb.sums⟩

/-- The seeding loop of `kk.py`, pushing one entry per item in caller order
with sequence numbers drawn from the counter starting at `i`. -/
def seedFrom (b : Bins α) (valueof : α → Int) : Nat → List α → List (HeapEntry α)
  | _, [] => []
  | i, x :: xs => seedEntry b valueof i x :: seedFrom b valueof (i + 1) xs

/-- The heap contents after the seeding loop of `kk.py`. -/
def seedHeap (b : Bins α) (valueof : α → Int) (items : List α) :
    List (HeapEntry α) :=
  seedFrom b valueof 0 items

/-- The solver `kk` of `kk.py`: seed one entry per item, run the merge loop
`len(items) - 1` times, and return the partition of `partitions[0]` (the heap
minimum; reading it from an empty heap is Python's IndexError). -/
def kk [DecidableEq α] (b : Bins α) (items : List α) (valueof : α → Int) : Except KKErr (Bins α) :=
  match kkIter b.num (items.length - 1) (seedHeap b valueof items, items.length) with
  | .error e => .error e
  | .ok (h, _) =>
    match h with
    | [] => .error .indexError
    | e :: rest => .ok (heapMin e rest).part

/-- The solver entry point of the spec: create an empty K-bin partition and
run `kk` on it, as the adaptor layer does. -/
def solve [DecidableEq α] (K : Nat) (items : List α) (valueof : α → Int) : Except KKErr (Bins α) :=
  kk (Bins.create_empty K) items valueof

/-- Python tuple comparison on two heap entries: compares keys, then sequence
numbers, and only if both tie would it have to compare the partition objects
themselves - which have no order, so that outcome is an error. -/
def pyCompare (x y : HeapEntry α) : Except Unit Ordering :=
  if x.key < y.key then .ok .lt
  else if y.key < x.key then .ok .gt
  else if x.seq < y.seq then .ok .lt
  else if y.seq < x.seq then .ok .gt
  else .error ()

/-- The sum of a bin under a value function. -/
def binSum (valueof : α → Int) (bin : List α) : Int := (bin.map valueof).sum

/-- Well-formedness of one partition: K bins, K index-aligned sums, and each
cached sum is the value sum of its bin. -/
def PartWF (K : Nat) (valueof : α → Int) (p : Bins α) : Prop :=
  p.num = K ∧ p.bins.length = K ∧ p.sums.length = K ∧
    p.sums = p.bins.map (binSum valueof)

/-- The multiset of items held by a partition. -/
def msItems (p : Bins α) : Multiset α := (p.bins.flatten : Multiset α)

/-- The multiset of items held across all live heap entries. -/
def heapItems (h : List (HeapEntry α)) : Multiset α :=
  (h.map fun e => msItems e.part).sum

/-- Sequence-number discipline of the heap: every live sequence number is
below the counter, and no two entries share one. -/
def SeqWF (h : List (HeapEntry α)) (c : Nat) : Prop :=
  (∀ e ∈ h, e.seq < c) ∧ (h.map HeapEntry.seq).Nodup

/-- A legal result of popping the priority structure: any entry that is
minimal in tuple order, the rest of the heap surviving. -/
def PopSpec [DecidableEq α] (h : List (HeapEntry α)) (e : HeapEntry α)
    (t : List (HeapEntry α)) : Prop :=
  e ∈ h ∧ (∀ y ∈ h, entryLe e y) ∧ t = h.erase e

/-- One merge-loop iteration specified relationally: the two pops may return
any minimal entries, the merged entry is pushed with the negated spread as
key, and the counter advances. -/
def StepRel [DecidableEq α] (K : Nat) (s s' : List (HeapEntry α) × Nat) : Prop :=
  ∃ e1 t1 e2 t2,
    PopSpec s.1 e1 t1 ∧ PopSpec t1 e2 t2 ∧
    ∃ mx mn,
      listMax (mergePartitions K e1.part e2.part).sums = some mx ∧
      listMin (mergePartitions K e1.part e2.part).sums = some mn ∧
      s'.1 = t2 ++ [⟨-(mx - mn), s.2, mergePartitions K e1.part e2.part,
                    (mergePartitions K e1.part e2.part).sums⟩] ∧
      s'.2 = s.2 + 1

/-- `k` relational merge-loop iterations. -/
def RunRel [DecidableEq α] (K : Nat) : Nat → List (HeapEntry α) × Nat →
    List (HeapEntry α) × Nat → Prop
  | 0, s, s' => s' = s
  | k + 1, s, s'' => ∃ s', StepRel K s s' ∧ RunRel K k s' s''

/-- A complete relational execution of the solver on `items` with `K` bins,
returning partition `r`: seed, run `n - 1` relational iterations, read the
minimal entry of the remaining heap. -/
def ExecRel [DecidableEq α] (K : Nat) (items : List α) (valueof : α → Int) (r : Bins α) : Prop :=
  ∃ h c e t,
    RunRel K (items.length - 1)
      (seedHeap (Bins.create_empty K) valueof items, items.length) (h, c) ∧
    h = e :: t ∧ r = (heapMin e t).part

/-! ### Basic list lemmas -/

lemma getD_set_self {β : Type} (l : List β) (d v : β) {j : Nat} (h : j < l.length) :
    (l.set j v).getD j d = v := by
  rw [List.getD_eq_getElem _ _ (by simpa using h), List.getElem_set]
  simp

lemma getD_set_ne {β : Type} (l : List β) (d v : β) {i j : Nat} (hij : j ≠ i) :
    (l.set j v).getD i d = l.getD i d := by
  rw [List.getD_eq_getElem?_getD, List.getD_eq_getElem?_getD, List.getElem?_set]
  simp [hij]

lemma set_replicate_last {β : Type} (K : Nat) (hK : 1 ≤ K) (c v : β) :
    (List.replicate K c).set (K - 1) v = List.replicate (K - 1) c ++ [v] := by
  induction K with
  | zero => omega
  | succ K ih =>
    cases Nat.eq_zero_or_pos K with
    | inl h0 => subst h0; rfl
    | inr hpos =>
      have hrep : List.replicate (K + 1) c = c :: List.replicate K c :=
        List.replicate_succ c K
      have hK1 : K + 1 - 1 = (K - 1) + 1 := by omega
      rw [hrep, hK1, List.set_cons_succ, ih hpos]
      rw [show K = (K - 1) + 1 by omega]
      simp [List.replicate_succ]

lemma flatten_replicate_nil (n : Nat) :
    (List.replicate n ([] : List α)).flatten = [] := by
  induction n with
  | zero => rfl
  | succ n ih => simp [List.replicate_succ, ih]

lemma binsEq {p q : Bins α} (h1 : p.num = q.num) (h2 : p.bins = q.bins)
    (h3 : p.sums = q.sums) : p = q := by
  cases p; cases q; simp_all

/-! ### The combine loop: closed form -/

lemma combineSteps_zero (K : Nat) (b1 b2 : Bins α) : combineSteps K b1 b2 0 = b1 := rfl

lemma combineSteps_succ (K : Nat) (b1 b2 : Bins α) (m : Nat) :
    combineSteps K b1 b2 (m + 1) =
      (combineSteps K b1 b2 m).combine_bins (K - m - 1) b2 m := by
  unfold combineSteps
  rw [List.range_succ, List.foldl_append]
  rfl

lemma combineSteps_spec (K : Nat) (b1 b2 : Bins α)
    (hb : b1.bins.length = K) (hs : b1.sums.length = K) :
    ∀ m, m ≤ K →
      (combineSteps K b1 b2 m).num = b1.num ∧
      (combineSteps K b1 b2 m).bins.length = K ∧
      (combineSteps K b1 b2 m).sums.length = K ∧
      (∀ j, j < K →
        (K - m ≤ j →
          (combineSteps K b1 b2 m).bins.getD j [] =
            b1.bins.getD j [] ++ b2.bins.getD (K - 1 - j) [] ∧
          (combineSteps K b1 b2 m).sums.getD j 0 =
            b1.sums.getD j 0 + b2.sums.getD (K - 1 - j) 0) ∧
        (j < K - m →
          (combineSteps K b1 b2 m).bins.getD j [] = b1.bins.getD j [] ∧
          (combineSteps K b1 b2 m).sums.getD j 0 = b1.sums.getD j 0)) := by
  intro m
  induction m with
  | zero =>
    intro _
    refine ⟨rfl, hb, hs, fun j hj => ⟨fun hle => absurd hle (by omega), fun _ => ⟨rfl, rfl⟩⟩⟩
  | succ m ih =>
    intro hm1
    obtain ⟨hnum, hblen, hslen, hpt⟩ := ih (by omega)
    rw [combineSteps_succ]
    have hmK : m < K := by omega
    have hidx : K - m - 1 < K := by omega
    refine ⟨hnum, ?_, ?_, ?_⟩
    · simp [Bins.combine_bins, hblen]
    · simp [Bins.combine_bins, hslen]
    · intro j hj
      by_cases hje : j = K - m - 1
      · subst hje
        have h1 : K - 1 - (K - m - 1) = m := by omega
        have hold := (hpt (K - m - 1) hidx).2 (by omega)
        constructor
        · intro _
          rw [h1]
          constructor
          · show (List.set _ (K - m - 1) _).getD (K - m - 1) [] = _
            rw [getD_set_self _ _ _ (by omega), hold.1]
          · show (List.set _ (K - m - 1) _).getD (K - m - 1) 0 = _
            rw [getD_set_self _ _ _ (by omega), hold.2]
        · intro hlt
          omega
      · have hbu : ((combineSteps K b1 b2 m).combine_bins (K - m - 1) b2 m).bins.getD j []
            = (combineSteps K b1 b2 m).bins.getD j [] :=
          getD_set_ne _ _ _ (fun hcc => hje hcc.symm)
        have hsu : ((combineSteps K b1 b2 m).combine_bins (K - m - 1) b2 m).sums.getD j 0
            = (combineSteps K b1 b2 m).sums.getD j 0 :=
          getD_set_ne _ _ _ (fun hcc => hje hcc.symm)
        constructor
        · intro hle
          rw [hbu, hsu]
          exact (hpt j hj).1 (by omega)
        · intro hlt
          rw [hbu, hsu]
          exact (hpt j hj).2 (by omega)

lemma list_eq_of_getD {β : Type} (d : β) (l1 l2 : List β)
    (hlen : l1.length = l2.length)
    (h : ∀ j, j < l1.length → l1.getD j d = l2.getD j d) : l1 = l2 := by
  refine List.ext_getElem hlen ?_
  intro n h1 h2
  have := h n h1
  rwa [List.getD_eq_getElem _ _ h1, List.getD_eq_getElem _ _ h2] at this

lemma zipWith_reverse_getD {β : Type} (f : β → β → β) (d : β) (l1 l2 : List β)
    (j : Nat) (hj : j < l1.length) (hlen : l1.length = l2.length) :
    (List.zipWith f l1 l2.reverse).getD j d =
      f (l1.getD j d) (l2.getD (l2.length - 1 - j) d) := by
  have hz : j < (List.zipWith f l1 l2.reverse).length := by
    rw [List.length_zipWith, List.length_reverse]
    omega
  rw [List.getD_eq_getElem _ _ hz, List.getD_eq_getElem _ _ hj,
    List.getD_eq_getElem _ _ (show l2.length - 1 - j < l2.length by omega),
    List.getElem_zipWith, List.getElem_reverse]

lemma combineAll_closed (K : Nat) (b1 b2 : Bins α)
    (hb1 : b1.bins.length = K) (hs1 : b1.sums.length = K)
    (hb2 : b2.bins.length = K) (hs2 : b2.sums.length = K) :
    combineAll K b1 b2 =
      ⟨b1.num, List.zipWith (· ++ ·) b1.bins b2.bins.reverse,
       List.zipWith (· + ·) b1.sums b2.sums.reverse⟩ := by
  obtain ⟨hnum, hblen, hslen, hpt⟩ := combineSteps_spec K b1 b2 hb1 hs1 K le_rfl
  have hca : combineAll K b1 b2 = combineSteps K b1 b2 K := rfl
  rw [hca]
  refine binsEq hnum ?_ ?_
  · refine list_eq_of_getD [] _ _ ?_ ?_
    · rw [hblen, List.length_zipWith, hb1, List.length_reverse, hb2]
      omega
    · intro j hj
      have hjK : j < K := by omega
      rw [((hpt j hjK).1 (by omega)).1,
        zipWith_reverse_getD _ _ _ _ j (by omega) (by omega), hb2]
  · refine list_eq_of_getD 0 _ _ ?_ ?_
    · rw [hslen, List.length_zipWith, hs1, List.length_reverse, hs2]
      omega
    · intro j hj
      have hjK : j < K := by omega
      rw [((hpt j hjK).1 (by omega)).2,
        zipWith_reverse_getD _ _ _ _ j (by omega) (by omega), hs2]

/-! ### Sorting lemmas -/

lemma insertPair_perm (p : Int × List α) (l : List (Int × List α)) :
    (insertPair p l).Perm (p :: l) := by
  induction l with
  | nil => exact List.Perm.refl _
  | cons q rest ih =>
    by_cases hpq : p.1 ≤ q.1
    · simp [insertPair, hpq]
    · simp only [insertPair, hpq, if_false]
      exact (ih.cons q).trans (List.Perm.swap p q rest)

lemma sortPairs_perm (l : List (Int × List α)) : (sortPairs l).Perm l := by
  induction l with
  | nil => exact List.Perm.refl _
  | cons p rest ih =>
    exact (insertPair_perm p (sortPairs rest)).trans (ih.cons p)

lemma insertPair_sorted (p : Int × List α) (l : List (Int × List α))
    (hl : List.Pairwise (fun u v : Int × List α => u.1 ≤ v.1) l) :
    List.Pairwise (fun u v : Int × List α => u.1 ≤ v.1) (insertPair p l) := by
  induction l with
  | nil => simp [insertPair]
  | cons q rest ih =>
    by_cases hpq : p.1 ≤ q.1
    · simp only [insertPair, hpq, if_true]
      refine List.Pairwise.cons ?_ hl
      intro y hy
      rcases List.mem_cons.1 hy with hy | hy
      · exact hy ▸ hpq
      · exact le_trans hpq ((List.pairwise_cons.1 hl).1 y hy)
    · simp only [insertPair, hpq, if_false]
      have hql : q.1 ≤ p.1 := le_of_not_le hpq
      obtain ⟨hq, hrest⟩ := List.pairwise_cons.1 hl
      refine List.Pairwise.cons ?_ (ih hrest)
      intro y hy
      have hy : y ∈ p :: rest := (insertPair_perm p rest).mem_iff.1 hy
      rcases List.mem_cons.1 hy with hy | hy
      · exact hy ▸ hql
      · exact hq y hy

lemma sortPairs_sorted (l : List (Int × List α)) :
    List.Pairwise (fun u v : Int × List α => u.1 ≤ v.1) (sortPairs l) := by
  induction l with
  | nil => simp [sortPairs]
  | cons p rest ih => exact insertPair_sorted p (sortPairs rest) ih

lemma zip_map_self (f : List α → Int) (l : List (List α)) :
    (l.map f).zip l = l.map fun x => (f x, x) := by
  induction l with
  | nil => rfl
  | cons a l ih => simp [ih]

lemma map_snd_pair (f : List α → Int) (l : List (List α)) :
    (l.map fun x => (f x, x)).map Prod.snd = l := by
  induction l with
  | nil => rfl
  | cons a l ih => simp [ih]

lemma sort_num (b : Bins α) : (b.sort).num = b.num := rfl

lemma sort_sorted (b : Bins α) : List.Pairwise (· ≤ ·) (b.sort).sums := by
  show List.Pairwise (· ≤ ·) ((sortPairs (b.sums.zip b.bins)).map Prod.fst)
  exact List.pairwise_map.2 (sortPairs_sorted _)

lemma sort_spec (v : α → Int) (b : Bins α)
    (hcons : b.sums = b.bins.map (binSum v)) :
    (b.sort).num = b.num ∧ (b.sort).bins.Perm b.bins ∧
    (b.sort).sums = (b.sort).bins.map (binSum v) := by
  have hz : b.sums.zip b.bins = b.bins.map fun x => (binSum v x, x) := by
    rw [hcons, zip_map_self]
  refine ⟨rfl, ?_, ?_⟩
  · show ((sortPairs (b.sums.zip b.bins)).map Prod.snd).Perm b.bins
    have h1 : ((sortPairs (b.sums.zip b.bins)).map Prod.snd).Perm
        ((b.sums.zip b.bins).map Prod.snd) :=
      (sortPairs_perm _).map Prod.snd
    refine h1.trans ?_
    rw [hz, map_snd_pair]
  · show (sortPairs (b.sums.zip b.bins)).map Prod.fst =
      ((sortPairs (b.sums.zip b.bins)).map Prod.snd).map (binSum v)
    rw [List.map_map]
    refine List.map_congr_left ?_
    intro q hq
    have hq2 : q ∈ b.sums.zip b.bins := (sortPairs_perm _).mem_iff.1 hq
    rw [hz] at hq2
    obtain ⟨x, _, hx⟩ := List.mem_map.1 hq2
    rw [← hx]
    rfl

/-! ### Multiset bookkeeping -/

lemma msItems_eq (p : Bins α) : msItems p = (p.bins.flatten : Multiset α) := rfl

lemma zipWith_append_flatten (l1 l2 : List (List α)) (h : l1.length = l2.length) :
    ((List.zipWith (· ++ ·) l1 l2).flatten : Multiset α) =
      (l1.flatten : Multiset α) + (l2.flatten : Multiset α) := by
  induction l1 generalizing l2 with
  | nil =>
    cases l2 with
    | nil => simp
    | cons b t => simp at h
  | cons a t1 ih =>
    cases l2 with
    | nil => simp at h
    | cons b t2 =>
      simp only [List.zipWith_cons_cons, List.flatten_cons, ← Multiset.coe_add]
      rw [ih t2 (by simpa using h)]
      abel

lemma sort_msItems (v : α → Int) (b : Bins α)
    (hcons : b.sums = b.bins.map (binSum v)) : msItems b.sort = msItems b := by
  obtain ⟨_, hperm, _⟩ := sort_spec v b hcons
  exact Multiset.coe_eq_coe.2 hperm.flatten

lemma combineAll_msItems (K : Nat) (b1 b2 : Bins α)
    (hb1 : b1.bins.length = K) (hs1 : b1.sums.length = K)
    (hb2 : b2.bins.length = K) (hs2 : b2.sums.length = K) :
    msItems (combineAll K b1 b2) = msItems b1 + msItems b2 := by
  rw [combineAll_closed K b1 b2 hb1 hs1 hb2 hs2]
  show ((List.zipWith (· ++ ·) b1.bins b2.bins.reverse).flatten : Multiset α) = _
  rw [zipWith_append_flatten _ _ (by rw [List.length_reverse]; omega)]
  congr 1
  exact Multiset.coe_eq_coe.2 (List.reverse_perm b2.bins).flatten

/-! ### Well-formedness of the merge -/

lemma map_binSum_zipWith (v : α → Int) (l1 l2 : List (List α)) :
    (List.zipWith (· ++ ·) l1 l2).map (binSum v) =
      List.zipWith (· + ·) (l1.map (binSum v)) (l2.map (binSum v)) := by
  induction l1 generalizing l2 with
  | nil => cases l2 <;> rfl
  | cons a t1 ih =>
    cases l2 with
    | nil => rfl
    | cons b t2 =>
      simp only [List.zipWith_cons_cons, List.map_cons, ih]
      congr 1
      simp [binSum]

lemma combineAll_wf (K : Nat) (v : α → Int) (b1 b2 : Bins α)
    (h1 : PartWF K v b1) (h2 : PartWF K v b2) :
    PartWF K v (combineAll K b1 b2) := by
  obtain ⟨hn1, hb1, hs1, hc1⟩ := h1
  obtain ⟨hn2, hb2, hs2, hc2⟩ := h2
  rw [combineAll_closed K b1 b2 hb1 hs1 hb2 hs2]
  refine ⟨hn1, ?_, ?_, ?_⟩
  · show (List.zipWith (· ++ ·) b1.bins b2.bins.reverse).length = K
    rw [List.length_zipWith, List.length_reverse, hb1, hb2]
    omega
  · show (List.zipWith (· + ·) b1.sums b2.sums.reverse).length = K
    rw [List.length_zipWith, List.length_reverse, hs1, hs2]
    omega
  · show List.zipWith (· + ·) b1.sums b2.sums.reverse =
      (List.zipWith (· ++ ·) b1.bins b2.bins.reverse).map (binSum v)
    rw [map_binSum_zipWith, ← hc1, hc2, List.map_reverse]

lemma partWF_sort (K : Nat) (v : α → Int) (b : Bins α) (h : PartWF K v b) :
    PartWF K v b.sort := by
  obtain ⟨hn, hb, hs, hc⟩ := h
  obtain ⟨hn2, hperm, hc2⟩ := sort_spec v b hc
  have hlen : (b.sort).bins.length = K := by rw [hperm.length_eq, hb]
  refine ⟨by rw [hn2, hn], hlen, ?_, hc2⟩
  rw [hc2, List.length_map, hlen]

lemma mergePartitions_wf (K : Nat) (v : α → Int) (p q : Bins α)
    (h1 : PartWF K v p) (h2 : PartWF K v q) :
    PartWF K v (mergePartitions K p q) ∧
    msItems (mergePartitions K p q) = msItems p + msItems q ∧
    List.Pairwise (· ≤ ·) (mergePartitions K p q).sums := by
  have hall := combineAll_wf K v p q h1 h2
  refine ⟨partWF_sort K v _ hall, ?_, sort_sorted _⟩
  show msItems (combineAll K p q).sort = _
  rw [sort_msItems v _ hall.2.2.2,
    combineAll_msItems K p q h1.2.1 h1.2.2.1 h2.2.1 h2.2.2.1]

/-! ### Entry order and heap lemmas -/

lemma entryLe_refl (x : HeapEntry α) : entryLe x x := by
  unfold entryLe
  omega

lemma entryLe_trans {x y z : HeapEntry α} (h1 : entryLe x y) (h2 : entryLe y z) :
    entryLe x z := by
  unfold entryLe at h1 h2 ⊢
  omega

lemma entryLe_of_lt {x y : HeapEntry α} (h : entryLt x y) : entryLe x y := by
  unfold entryLt at h
  unfold entryLe
  omega

lemma entryLe_of_not_lt {x y : HeapEntry α} (h : ¬ entryLt x y) : entryLe y x := by
  unfold entryLt at h
  unfold entryLe
  omega

lemma entryLe_antisymm_keyseq {x y : HeapEntry α} (h1 : entryLe x y)
    (h2 : entryLe y x) : x.key = y.key ∧ x.seq = y.seq := by
  unfold entryLe at h1 h2
  omega

lemma entryLt_of_le_ne_seq {x y : HeapEntry α} (h : entryLe x y)
    (hne : x.seq ≠ y.seq) : entryLt x y := by
  unfold entryLe at h
  unfold entryLt
  omega

lemma heapMin_eq_or_mem (e : HeapEntry α) (l : List (HeapEntry α)) :
    heapMin e l = e ∨ heapMin e l ∈ l := by
  induction l generalizing e with
  | nil => exact Or.inl rfl
  | cons f rest ih =>
    by_cases hfe : entryLt f e
    · rcases ih f with h | h
      · right
        simp only [heapMin, if_pos hfe, h]
        exact List.mem_cons_self f rest
      · right
        simp only [heapMin, if_pos hfe]
        exact List.mem_cons_of_mem f h
    · rcases ih e with h | h
      · left
        simp only [heapMin, if_neg hfe, h]
      · right
        simp only [heapMin, if_neg hfe]
        exact List.mem_cons_of_mem f h

lemma heapMin_mem (e : HeapEntry α) (l : List (HeapEntry α)) :
    heapMin e l ∈ e :: l := by
  rcases heapMin_eq_or_mem e l with h | h
  · rw [h]; exact List.mem_cons_self e l
  · exact List.mem_cons_of_mem e h

lemma heapMin_le (e : HeapEntry α) (l : List (HeapEntry α)) :
    ∀ y ∈ e :: l, entryLe (heapMin e l) y := by
  induction l generalizing e with
  | nil =>
    intro y hy
    rcases List.mem_cons.1 hy with rfl | hy
    · exact entryLe_refl y
    · cases hy
  | cons f rest ih =>
    intro y hy
    simp only [heapMin]
    have hm0e : entryLe (if entryLt f e then f else e) e := by
      by_cases hfe : entryLt f e
      · rw [if_pos hfe]; exact entryLe_of_lt hfe
      · rw [if_neg hfe]; exact entryLe_refl e
    have hm0f : entryLe (if entryLt f e then f else e) f := by
      by_cases hfe : entryLt f e
      · rw [if_pos hfe]; exact entryLe_refl f
      · rw [if_neg hfe]; exact entryLe_of_not_lt hfe
    have hminm0 : entryLe (heapMin (if entryLt f e then f else e) rest)
        (if entryLt f e then f else e) :=
      ih _ _ (List.mem_cons_self _ _)
    rcases List.mem_cons.1 hy with rfl | hy
    · exact entryLe_trans hminm0 hm0e
    · rcases List.mem_cons.1 hy with rfl | hy
      · exact entryLe_trans hminm0 hm0f
      · exact ih _ y (List.mem_cons_of_mem _ hy)

lemma heapPop_some_inv [DecidableEq α] {h : List (HeapEntry α)}
    {m : HeapEntry α} {t : List (HeapEntry α)} (hp : heapPop h = some (m, t)) :
    m ∈ h ∧ t = h.erase m ∧ (∀ y ∈ h, entryLe m y) ∧
    t.length + 1 = h.length ∧ h.Perm (m :: t) := by
  cases h with
  | nil => cases hp
  | cons e rest =>
    have hmt : heapMin e rest = m ∧ (e :: rest).erase (heapMin e rest) = t := by
      simpa [heapPop] using hp
    obtain ⟨hm, ht⟩ := hmt
    subst hm
    subst ht
    have hmem : heapMin e rest ∈ e :: rest := heapMin_mem e rest
    refine ⟨hmem, rfl, heapMin_le e rest, ?_, List.perm_cons_erase hmem⟩
    rw [List.length_erase_of_mem hmem]
    have : 0 < (e :: rest).length := by simp
    omega

lemma heapPop_of_ne_nil [DecidableEq α] {h : List (HeapEntry α)} (hne : h ≠ []) :
    ∃ m t, heapPop h = some (m, t) := by
  cases h with
  | nil => exact absurd rfl hne
  | cons e rest => exact ⟨heapMin e rest, (e :: rest).erase (heapMin e rest), rfl⟩

lemma heapPop_of_min [DecidableEq α] {h : List (HeapEntry α)} {m : HeapEntry α}
    (hnd : (h.map HeapEntry.seq).Nodup) (hm : m ∈ h)
    (hmin : ∀ y ∈ h, entryLe m y) :
    heapPop h = some (m, h.erase m) := by
  obtain ⟨m', t', hpop⟩ := heapPop_of_ne_nil (h := h) (by rintro rfl; cases hm)
  obtain ⟨hm', ht', hmin', _, _⟩ := heapPop_some_inv hpop
  have h1 : entryLe m m' := hmin m' hm'
  have h2 : entryLe m' m := hmin' m hm
  have hks := entryLe_antisymm_keyseq h1 h2
  have heq : m = m' := List.inj_on_of_nodup_map hnd hm hm' hks.2
  rw [hpop, ht', heq]

/-! ### Heap item bookkeeping -/

lemma heapItems_nil : heapItems ([] : List (HeapEntry α)) = 0 := rfl

lemma heapItems_cons (e : HeapEntry α) (l : List (HeapEntry α)) :
    heapItems (e :: l) = msItems e.part + heapItems l := by
  simp [heapItems]

lemma heapItems_append (l1 l2 : List (HeapEntry α)) :
    heapItems (l1 ++ l2) = heapItems l1 + heapItems l2 := by
  simp [heapItems]

lemma heapItems_perm {h1 h2 : List (HeapEntry α)} (hp : h1.Perm h2) :
    heapItems h1 = heapItems h2 :=
  (hp.map _).sum_eq

lemma listMax_of_ne_nil (l : List Int) (h : l ≠ []) : ∃ x, listMax l = some x := by
  cases l with
  | nil => exact absurd rfl h
  | cons a t => exact ⟨t.foldl max a, rfl⟩

lemma listMin_of_ne_nil (l : List Int) (h : l ≠ []) : ∃ x, listMin l = some x := by
  cases l with
  | nil => exact absurd rfl h
  | cons a t => exact ⟨t.foldl min a, rfl⟩

/-! ### The merge-loop step -/

lemma kkStep_ok_inv [DecidableEq α] {K : Nat} {h h' : List (HeapEntry α)}
    {c c' : Nat} (hstep : kkStep K h c = .ok (h', c')) :
    ∃ e1 t1 e2 t2 mx mn,
      heapPop h = some (e1, t1) ∧ heapPop t1 = some (e2, t2) ∧
      listMax (mergePartitions K e1.part e2.part).sums = some mx ∧
      listMin (mergePartitions K e1.part e2.part).sums = some mn ∧
      h' = t2 ++ [⟨-(mx - mn), c, mergePartitions K e1.part e2.part,
                  (mergePartitions K e1.part e2.part).sums⟩] ∧
      c' = c + 1 := by
  unfold kkStep at hstep
  split at hstep
  · cases hstep
  next e1 t1 hp1 =>
    split at hstep
    · cases hstep
    next e2 t2 hp2 =>
      split at hstep
      next mx mn hmx hmn =>
        rw [Except.ok.injEq, Prod.mk.injEq] at hstep
        exact ⟨e1, t1, e2, t2, mx, mn, hp1, hp2, hmx, hmn,
          hstep.1.symm, hstep.2.symm⟩
      next hcatch =>
        cases hstep

lemma kkStep_seqWF [DecidableEq α] {K : Nat} {h h' : List (HeapEntry α)}
    {c c' : Nat} (hwf : SeqWF h c) (hstep : kkStep K h c = .ok (h', c')) :
    SeqWF h' c' ∧ c' = c + 1 := by
  obtain ⟨e1, t1, e2, t2, mx, mn, hp1, hp2, hmx, hmn, hh', hc'⟩ := kkStep_ok_inv hstep
  obtain ⟨hm1, ht1, _, _, _⟩ := heapPop_some_inv hp1
  obtain ⟨hm2, ht2, _, _, _⟩ := heapPop_some_inv hp2
  obtain ⟨hlt, hnd⟩ := hwf
  have hmemt1 : ∀ e ∈ t1, e ∈ h := by
    intro e he
    rw [ht1] at he
    exact List.mem_of_mem_erase he
  have hmemt2 : ∀ e ∈ t2, e ∈ h := by
    intro e he
    rw [ht2] at he
    exact hmemt1 e (List.mem_of_mem_erase he)
  have hsub1 : (t1.map HeapEntry.seq).Sublist (h.map HeapEntry.seq) := by
    rw [ht1]
    exact (List.erase_sublist e1 h).map HeapEntry.seq
  have hsub2 : (t2.map HeapEntry.seq).Sublist (t1.map HeapEntry.seq) := by
    rw [ht2]
    exact (List.erase_sublist e2 t1).map HeapEntry.seq
  have hnd2 : (t2.map HeapEntry.seq).Nodup := (hsub2.trans hsub1).nodup hnd
  subst hh'
  subst hc'
  constructor
  · constructor
    · intro e he
      rcases List.mem_append.1 he with he | he
      · have := hlt e (hmemt2 e he)
        omega
      · rcases List.mem_cons.1 he with rfl | he2
        · simp
        · cases he2
    · rw [List.map_append]
      rw [List.nodup_append]
      refine ⟨hnd2, by simp, ?_⟩
      intro a ha hb
      simp only [List.map_cons, List.map_nil, List.mem_cons] at hb
      rcases hb with rfl | hb
      · obtain ⟨e, he, hseq⟩ := List.mem_map.1 ha
        have := hlt e (hmemt2 e he)
        omega
      · cases hb
  · rfl

lemma kkStep_preserve [DecidableEq α] {K : Nat} (v : α → Int)
    {h : List (HeapEntry α)} {c : Nat}
    (hK : 1 ≤ K) (hlen : 2 ≤ h.length)
    (hwf : ∀ e ∈ h, PartWF K v e.part) (hseq : SeqWF h c) :
    ∃ h', kkStep K h c = .ok (h', c + 1) ∧
      (∀ e ∈ h', PartWF K v e.part) ∧ SeqWF h' (c + 1) ∧
      h'.length + 1 = h.length ∧ heapItems h' = heapItems h ∧
      ((∀ e ∈ h, List.Pairwise (· ≤ ·) e.part.sums) →
        ∀ e ∈ h', List.Pairwise (· ≤ ·) e.part.sums) := by
  obtain ⟨m1, t1, hp1⟩ := heapPop_of_ne_nil (h := h)
    (by intro hnil; rw [hnil] at hlen; simp at hlen)
  obtain ⟨hm1, ht1, hmin1, hlen1, hperm1⟩ := heapPop_some_inv hp1
  obtain ⟨m2, t2, hp2⟩ := heapPop_of_ne_nil (h := t1)
    (by intro hnil; rw [hnil] at hlen1; simp at hlen1; omega)
  obtain ⟨hm2, ht2, hmin2, hlen2, hperm2⟩ := heapPop_some_inv hp2
  have hmemt1 : ∀ e ∈ t1, e ∈ h := by
    intro e he
    rw [ht1] at he
    exact List.mem_of_mem_erase he
  have hmemt2 : ∀ e ∈ t2, e ∈ h := by
    intro e he
    rw [ht2] at he
    exact hmemt1 e (List.mem_of_mem_erase he)
  have hwf1 : PartWF K v m1.part := hwf m1 hm1
  have hwf2 : PartWF K v m2.part := hwf m2 (hmemt1 m2 hm2)
  obtain ⟨hmwf, hmitems, hmsorted⟩ := mergePartitions_wf K v m1.part m2.part hwf1 hwf2
  have hsne : (mergePartitions K m1.part m2.part).sums ≠ [] := by
    intro hnil
    have := hmwf.2.2.1
    rw [hnil] at this
    simp at this
    omega
  obtain ⟨mx, hmx⟩ := listMax_of_ne_nil _ hsne
  obtain ⟨mn, hmn⟩ := listMin_of_ne_nil _ hsne
  have hstep : kkStep K h c =
      .ok (t2 ++ [⟨-(mx - mn), c, mergePartitions K m1.part m2.part,
                  (mergePartitions K m1.part m2.part).sums⟩], c + 1) := by
    simp only [kkStep, hp1, hp2, hmx, hmn]
  refine ⟨_, hstep, ?_, (kkStep_seqWF hseq hstep).1, ?_, ?_, ?_⟩
  · intro e he
    rcases List.mem_append.1 he with he | he
    · exact hwf e (hmemt2 e he)
    · rcases List.mem_cons.1 he with rfl | he2
      · exact hmwf
      · cases he2
  · rw [List.length_append]
    simp only [List.length_cons, List.length_nil]
    omega
  · rw [heapItems_append, heapItems_cons, heapItems_nil, heapItems_perm hperm1,
      heapItems_cons, heapItems_perm hperm2, heapItems_cons]
    show heapItems t2 + (msItems (mergePartitions K m1.part m2.part) + 0) =
      msItems m1.part + (msItems m2.part + heapItems t2)
    rw [hmitems]
    abel
  · intro hall e he
    rcases List.mem_append.1 he with he | he
    · exact hall e (hmemt2 e he)
    · rcases List.mem_cons.1 he with rfl | he2
      · exact hmsorted
      · cases he2

/-! ### Seeding lemmas -/

lemma getD_replicate_self {β : Type} (n i : Nat) (a : β) :
    (List.replicate n a).getD i a = a := by
  rcases Nat.lt_or_ge i n with h | h
  · rw [List.getD_eq_getElem _ _ (by simpa using h), List.getElem_replicate]
  · rw [List.getD_eq_default _ _ (by simpa using h)]

lemma seedEntry_create (K : Nat) (hK : 1 ≤ K) (v : α → Int) (i : Nat) (x : α) :
    seedEntry (Bins.create_empty K) v i x =
      ⟨-(v x), i,
       ⟨K, List.replicate (K - 1) [] ++ [[x]], List.replicate (K - 1) 0 ++ [v x]⟩,
       List.replicate (K - 1) 0 ++ [v x]⟩ := by
  have hb : (List.replicate K ([] : List α)).set (K - 1)
      ((List.replicate K ([] : List α)).getD (K - 1) [] ++ [x]) =
      List.replicate (K - 1) [] ++ [[x]] := by
    rw [getD_replicate_self]
    simpa using set_replicate_last K hK ([] : List α) [x]
  have hs : (List.replicate K (0 : Int)).set (K - 1)
      ((List.replicate K (0 : Int)).getD (K - 1) 0 + v x) =
      List.replicate (K - 1) 0 ++ [v x] := by
    rw [getD_replicate_self]
    simpa using set_replicate_last K hK (0 : Int) (v x)
  show HeapEntry.mk _ _ _ _ = HeapEntry.mk _ _ _ _
  rw [HeapEntry.mk.injEq]
  refine ⟨rfl, rfl, ?_, ?_⟩
  · exact binsEq rfl hb hs
  · exact hs

lemma seedFrom_length (b : Bins α) (v : α → Int) (i : Nat) (items : List α) :
    (seedFrom b v i items).length = items.length := by
  induction items generalizing i with
  | nil => rfl
  | cons x xs ih => simp [seedFrom, ih]

lemma seedFrom_getElem? (b : Bins α) (v : α → Int) (i : Nat) (items : List α)
    (j : Nat) :
    (seedFrom b v i items)[j]? =
      Option.map (fun x => seedEntry b v (i + j) x) items[j]? := by
  induction items generalizing i j with
  | nil => simp [seedFrom]
  | cons x xs ih =>
    cases j with
    | zero => simp [seedFrom]
    | succ j =>
      rw [show seedFrom b v i (x :: xs) =
        seedEntry b v i x :: seedFrom b v (i + 1) xs from rfl,
        List.getElem?_cons_succ, List.getElem?_cons_succ, ih (i + 1) j,
        show i + 1 + j = i + (j + 1) by omega]

lemma seedFrom_mem {b : Bins α} {v : α → Int} {i : Nat} {items : List α}
    {e : HeapEntry α} (he : e ∈ seedFrom b v i items) :
    ∃ j x, x ∈ items ∧ e = seedEntry b v j x ∧ i ≤ j ∧ j < i + items.length := by
  induction items generalizing i with
  | nil => cases he
  | cons y ys ih =>
    rcases List.mem_cons.1 he with rfl | he2
    · exact ⟨i, y, List.mem_cons_self y ys, rfl, le_rfl, by simp⟩
    · obtain ⟨j, x, hx, hex, hij, hjlt⟩ := ih he2
      refine ⟨j, x, List.mem_cons_of_mem y hx, hex, by omega, ?_⟩
      simp only [List.length_cons]
      omega

lemma seedFrom_seq_bounds {b : Bins α} {v : α → Int} {i : Nat} {items : List α}
    {e : HeapEntry α} (he : e ∈ seedFrom b v i items) :
    i ≤ e.seq ∧ e.seq < i + items.length := by
  obtain ⟨j, x, _, rfl, hij, hjlt⟩ := seedFrom_mem he
  exact ⟨hij, hjlt⟩

lemma seedFrom_seq_nodup (b : Bins α) (v : α → Int) (i : Nat) (items : List α) :
    ((seedFrom b v i items).map HeapEntry.seq).Nodup := by
  induction items generalizing i with
  | nil => simp [seedFrom]
  | cons x xs ih =>
    simp only [seedFrom, List.map_cons, List.nodup_cons]
    refine ⟨?_, ih (i + 1)⟩
    intro hmem
    obtain ⟨e, he, hseq⟩ := List.mem_map.1 hmem
    have := (seedFrom_seq_bounds he).1
    simp only [seedEntry] at hseq
    omega

lemma seed_seqWF (b : Bins α) (v : α → Int) (items : List α) :
    SeqWF (seedHeap b v items) items.length := by
  refine ⟨?_, seedFrom_seq_nodup b v 0 items⟩
  intro e he
  have := (seedFrom_seq_bounds he).2
  omega

lemma seed_partWF (K : Nat) (hK : 1 ≤ K) (v : α → Int) (i : Nat) (x : α) :
    PartWF K v (seedEntry (Bins.create_empty K) v i x).part := by
  rw [seedEntry_create K hK]
  refine ⟨rfl, ?_, ?_, ?_⟩
  · simp only [List.length_append, List.length_replicate, List.length_cons,
      List.length_nil]
    omega
  · simp only [List.length_append, List.length_replicate, List.length_cons,
      List.length_nil]
    omega
  · rw [List.map_append, List.map_replicate]
    simp [binSum]

lemma msItems_seed (K : Nat) (hK : 1 ≤ K) (v : α → Int) (i : Nat) (x : α) :
    msItems (seedEntry (Bins.create_empty K) v i x).part = ({x} : Multiset α) := by
  rw [seedEntry_create K hK]
  show ((List.replicate (K - 1) [] ++ [[x]]).flatten : Multiset α) = {x}
  rw [List.flatten_append, flatten_replicate_nil]
  simp

lemma seedFrom_items (K : Nat) (hK : 1 ≤ K) (v : α → Int) (i : Nat)
    (items : List α) :
    heapItems (seedFrom (Bins.create_empty K) v i items) = (items : Multiset α) := by
  induction items generalizing i with
  | nil => rfl
  | cons x xs ih =>
    show heapItems (seedEntry (Bins.create_empty K) v i x ::
      seedFrom (Bins.create_empty K) v (i + 1) xs) = _
    rw [heapItems_cons, msItems_seed K hK, ih (i + 1), Multiset.singleton_add,
      Multiset.cons_coe]

lemma pairwise_le_replicate (n : Nat) (c : Int) :
    List.Pairwise (· ≤ ·) (List.replicate n c) := by
  induction n with
  | zero => simp
  | succ n ih =>
    rw [List.replicate_succ]
    refine List.Pairwise.cons ?_ ih
    intro y hy
    rw [List.eq_of_mem_replicate hy]

lemma seed_sorted (K : Nat) (hK : 1 ≤ K) (v : α → Int) (i : Nat) (x : α)
    (hx : 0 ≤ v x) :
    List.Pairwise (· ≤ ·) (seedEntry (Bins.create_empty K) v i x).part.sums := by
  rw [seedEntry_create K hK]
  show List.Pairwise (· ≤ ·) (List.replicate (K - 1) 0 ++ [v x])
  rw [List.pairwise_append]
  refine ⟨pairwise_le_replicate _ 0, by simp, ?_⟩
  intro a ha b hb
  rw [List.eq_of_mem_replicate ha, List.mem_singleton.1 hb]
  exact hx

/-! ### Iterating the merge loop -/

lemma kkIter_succ_right [DecidableEq α] (K k : Nat)
    (st : List (HeapEntry α) × Nat) :
    kkIter K (k + 1) st =
      Except.bind (kkIter K k st) (fun st' => kkStep K st'.1 st'.2) := by
  induction k generalizing st with
  | zero =>
    cases hs : kkStep K st.1 st.2 with
    | error e => simp [kkIter, hs, Except.bind]
    | ok st' => simp [kkIter, hs, Except.bind]
  | succ k ih =>
    cases hs : kkStep K st.1 st.2 with
    | error e =>
      show (match kkStep K st.1 st.2 with
            | Except.error e => Except.error e
            | Except.ok st' => kkIter K (k + 1) st') = _
      rw [hs]
      show Except.error e =
        Except.bind (match kkStep K st.1 st.2 with
          | Except.error e => Except.error e
          | Except.ok st' => kkIter K k st') (fun st' => kkStep K st'.1 st'.2)
      rw [hs]
      rfl
    | ok st2 =>
      show (match kkStep K st.1 st.2 with
            | Except.error e => Except.error e
            | Except.ok st' => kkIter K (k + 1) st') = _
      rw [hs]
      show kkIter K (k + 1) st2 =
        Except.bind (match kkStep K st.1 st.2 with
          | Except.error e => Except.error e
          | Except.ok st' => kkIter K k st') (fun st' => kkStep K st'.1 st'.2)
      rw [hs]
      exact ih st2

lemma kkIter_seqWF [DecidableEq α] {K k : Nat} {st st' : List (HeapEntry α) × Nat}
    (hwf : SeqWF st.1 st.2) (hit : kkIter K k st = .ok st') : SeqWF st'.1 st'.2 := by
  induction k generalizing st with
  | zero =>
    have : st' = st := by simpa [kkIter] using hit.symm
    rw [this]
    exact hwf
  | succ k ih =>
    have hit2 : (match kkStep K st.1 st.2 with
        | Except.error e => Except.error e
        | Except.ok st2 => kkIter K k st2) = Except.ok st' := hit
    cases hs : kkStep K st.1 st.2 with
    | error e =>
      rw [hs] at hit2
      cases hit2
    | ok st2 =>
      rw [hs] at hit2
      obtain ⟨hwf2, _⟩ := kkStep_seqWF (by exact hwf) hs
      exact ih hwf2 hit2

/-! ### The master reachability invariant -/

lemma kk_reach [DecidableEq α] (K : Nat) (v : α → Int) (items : List α)
    (hK : 1 ≤ K) :
    ∀ k, k + 1 ≤ items.length →
      ∃ h, kkIter K k (seedHeap (Bins.create_empty K) v items, items.length) =
            .ok (h, items.length + k) ∧
        (∀ e ∈ h, PartWF K v e.part) ∧ SeqWF h (items.length + k) ∧
        h.length + k = items.length ∧ heapItems h = (items : Multiset α) ∧
        ((∀ x ∈ items, 0 ≤ v x) → ∀ e ∈ h, List.Pairwise (· ≤ ·) e.part.sums) := by
  intro k
  induction k with
  | zero =>
    intro _
    refine ⟨seedHeap (Bins.create_empty K) v items, rfl, ?_, ?_, ?_, ?_, ?_⟩
    · intro e he
      obtain ⟨j, x, hx, rfl, _, _⟩ := seedFrom_mem he
      exact seed_partWF K hK v j x
    · simpa using seed_seqWF (Bins.create_empty K) v items
    · simpa using seedFrom_length (Bins.create_empty K) v 0 items
    · exact seedFrom_items K hK v 0 items
    · intro hv e he
      obtain ⟨j, x, hx, rfl, _, _⟩ := seedFrom_mem he
      exact seed_sorted K hK v j x (hv x hx)
  | succ k ih =>
    intro hk1
    obtain ⟨h, hit, hwf, hseq, hlen, hitems, hsorted⟩ := ih (by omega)
    have hlen2 : 2 ≤ h.length := by omega
    obtain ⟨h', hstep, hwf', hseq', hlen', hitems', hsorted'⟩ :=
      kkStep_preserve v hK hlen2 hwf hseq
    refine ⟨h', ?_, hwf', ?_, by omega, by rw [hitems'] at *; exact hitems, ?_⟩
    · rw [kkIter_succ_right, hit]
      show kkStep K h (items.length + k) = _
      rw [hstep]
      rfl
    · have : items.length + (k + 1) = items.length + k + 1 := by omega
      rw [this]
      exact hseq'
    · intro hv
      exact hsorted' (hsorted hv)

/-! ### Final extraction -/

lemma kk_final [DecidableEq α] {K : Nat} {items : List α} {v : α → Int}
    {e : HeapEntry α} {c : Nat}
    (hit : kkIter K (items.length - 1)
      (seedHeap (Bins.create_empty K) v items, items.length) = .ok ([e], c)) :
    solve K items v = .ok e.part := by
  unfold solve kk
  rw [show (Bins.create_empty K : Bins α).num = K from rfl, hit]
  rfl

/-! ### Claim theorems -/

/-- C1: for every call of the solver with numBins ≥ 1, a non-empty item
sequence, and a value function non-negative on every item, the result is a
partition with exactly numBins bins, the multiset union of its bins' items
equals the input multiset exactly once, its cached sums agree with the bins'
contents, and the bins are in ascending order of sum. -/
theorem c1_solver_postcondition [DecidableEq α] (K : Nat) (items : List α)
    (v : α → Int) (hK : 1 ≤ K) (hne : items ≠ []) (hv : ∀ x ∈ items, 0 ≤ v x) :
    ∃ p, solve K items v = .ok p ∧ p.num = K ∧ p.bins.length = K ∧
      msItems p = (items : Multiset α) ∧
      p.sums = p.bins.map (binSum v) ∧ List.Pairwise (· ≤ ·) p.sums := by
  have hn1 : 1 ≤ items.length := by
    cases items with
    | nil => exact absurd rfl hne
    | cons x xs => simp
  obtain ⟨h, hit, hwf, hseq, hlen, hitems, hsorted⟩ :=
    kk_reach K v items hK (items.length - 1) (by omega)
  have hlen1 : h.length = 1 := by omega
  obtain ⟨e, rfl⟩ := List.length_eq_one.1 hlen1
  have hmem : e ∈ [e] := List.mem_singleton.2 rfl
  refine ⟨e.part, kk_final hit, (hwf e hmem).1, (hwf e hmem).2.1, ?_,
    (hwf e hmem).2.2.2, hsorted hv e hmem⟩
  rw [heapItems_cons, heapItems_nil, add_zero] at hitems
  exact hitems

theorem c1_solver_postcondition_witness :
    (1 ≤ 2) ∧ ([(1 : Int), 2, 3] ≠ []) ∧
    (∀ x ∈ [(1 : Int), 2, 3], 0 ≤ (fun y => y) x) ∧
    (∃ p, solve 2 [(1 : Int), 2, 3] (fun y => y) = .ok p ∧ p.num = 2 ∧
      p.bins.length = 2 ∧ msItems p = ([(1 : Int), 2, 3] : Multiset Int) ∧
      p.sums = p.bins.map (binSum (fun y => y)) ∧
      List.Pairwise (· ≤ ·) p.sums) :=
  ⟨by norm_num, by decide, by decide,
    c1_solver_postcondition 2 [(1 : Int), 2, 3] (fun y => y)
      (by norm_num) (by decide) (by decide)⟩

/-- C2 counterexample: with an empty item sequence the solver does not signal
the EmptyInput error; the merge loop performs zero iterations and the failure
that actually surfaces is the index error raised when `partitions[0]` is read
from the empty heap after the loop. -/
theorem c2_empty_counterexample :
    solve 2 ([] : List Int) (fun y => y) = .error KKErr.indexError ∧
    (Except.error KKErr.indexError : Except KKErr (Bins Int)) ≠
      Except.error KKErr.emptyInput := by
  exact ⟨rfl, by simp⟩

/-- C2 amended: for every call of the solver with a valid bin count
(numBins ≥ 1) and an empty item sequence, the merge loop body never executes
and the call fails with an index error at the final extraction of
`partitions[0]` - not with an eagerly-detected EmptyInput error before the
loop.  (K = 0 is excluded: there the spec already makes `create_empty` fail
with InvalidConfiguration, a path this model does not cover.) -/
theorem c2_amended_empty_failure [DecidableEq α] (K : Nat) (_hK : 1 ≤ K)
    (v : α → Int) :
    solve K ([] : List α) v = .error KKErr.indexError := rfl

theorem c2_amended_empty_failure_witness :
    (1 ≤ 2) ∧
    solve 2 ([] : List Int) (fun y => y) = .error KKErr.indexError :=
  ⟨by norm_num, c2_amended_empty_failure 2 (by norm_num) (fun y => y)⟩

/-- C3: merging two K-bin partitions A (the destination) and B pairs A's bin
at index K-1-i with B's bin at index i for every i < K - the
largest-with-smallest pairing - and the merged partition used further is the
combined partition re-sorted into ascending order of sum. -/
theorem c3_merge_pairing (K : Nat) (A B : Bins α)
    (hA1 : A.bins.length = K) (hA2 : A.sums.length = K) :
    (∀ i, i < K →
      (combineAll K A B).bins.getD (K - 1 - i) [] =
        A.bins.getD (K - 1 - i) [] ++ B.bins.getD i [] ∧
      (combineAll K A B).sums.getD (K - 1 - i) 0 =
        A.sums.getD (K - 1 - i) 0 + B.sums.getD i 0) ∧
    mergePartitions K A B = (combineAll K A B).sort ∧
    List.Pairwise (· ≤ ·) (mergePartitions K A B).sums := by
  obtain ⟨hnum, hblen, hslen, hpt⟩ := combineSteps_spec K A B hA1 hA2 K le_rfl
  have hca : combineAll K A B = combineSteps K A B K := rfl
  refine ⟨?_, rfl, sort_sorted _⟩
  intro i hi
  have hj : K - 1 - i < K := by omega
  have hidx : K - 1 - (K - 1 - i) = i := by omega
  obtain ⟨hb, hs⟩ := (hpt (K - 1 - i) hj).1 (by omega)
  rw [hca]
  rw [hidx] at hb hs
  exact ⟨hb, hs⟩

theorem c3_merge_pairing_witness :
    (((⟨2, [[(1 : Int)], [2, 3]], [1, 5]⟩ : Bins Int).bins.length = 2) ∧
     ((⟨2, [[(1 : Int)], [2, 3]], [1, 5]⟩ : Bins Int).sums.length = 2)) ∧
    ((∀ i, i < 2 →
      (combineAll 2 (⟨2, [[(1 : Int)], [2, 3]], [1, 5]⟩ : Bins Int)
          (⟨2, [[(4 : Int)], [6]], [4, 6]⟩ : Bins Int)).bins.getD (2 - 1 - i) [] =
        (⟨2, [[(1 : Int)], [2, 3]], [1, 5]⟩ : Bins Int).bins.getD (2 - 1 - i) [] ++
          (⟨2, [[(4 : Int)], [6]], [4, 6]⟩ : Bins Int).bins.getD i [] ∧
      (combineAll 2 (⟨2, [[(1 : Int)], [2, 3]], [1, 5]⟩ : Bins Int)
          (⟨2, [[(4 : Int)], [6]], [4, 6]⟩ : Bins Int)).sums.getD (2 - 1 - i) 0 =
        (⟨2, [[(1 : Int)], [2, 3]], [1, 5]⟩ : Bins Int).sums.getD (2 - 1 - i) 0 +
          (⟨2, [[(4 : Int)], [6]], [4, 6]⟩ : Bins Int).sums.getD i 0) ∧
    mergePartitions 2 (⟨2, [[(1 : Int)], [2, 3]], [1, 5]⟩ : Bins Int)
        (⟨2, [[(4 : Int)], [6]], [4, 6]⟩ : Bins Int) =
      (combineAll 2 (⟨2, [[(1 : Int)], [2, 3]], [1, 5]⟩ : Bins Int)
        (⟨2, [[(4 : Int)], [6]], [4, 6]⟩ : Bins Int)).sort ∧
    List.Pairwise (· ≤ ·)
      (mergePartitions 2 (⟨2, [[(1 : Int)], [2, 3]], [1, 5]⟩ : Bins Int)
        (⟨2, [[(4 : Int)], [6]], [4, 6]⟩ : Bins Int)).sums) :=
  ⟨⟨rfl, rfl⟩, c3_merge_pairing 2 _ _ rfl rfl⟩

/-- C5: the seeding loop processes the items in caller order; the j-th item x
is pushed as an entry with key `-(valueof x)`, sequence number j, and a
partition holding x alone in the last bin (index K-1) with all other bins
empty and all other sums zero. -/
theorem c5_seeding (K : Nat) (v : α → Int) (items : List α) (hK : 1 ≤ K) :
    (seedHeap (Bins.create_empty K) v items).length = items.length ∧
    ∀ (j : Nat) (x : α), items[j]? = some x →
      (seedHeap (Bins.create_empty K) v items)[j]? =
        some ⟨-(v x), j,
          ⟨K, List.replicate (K - 1) [] ++ [[x]],
           List.replicate (K - 1) 0 ++ [v x]⟩,
          List.replicate (K - 1) 0 ++ [v x]⟩ := by
  refine ⟨seedFrom_length _ v 0 items, ?_⟩
  intro j x hx
  rw [show seedHeap (Bins.create_empty K) v items =
    seedFrom (Bins.create_empty K) v 0 items from rfl]
  rw [seedFrom_getElem?, hx, Option.map_some',
    show 0 + j = j by omega, seedEntry_create K hK]

theorem c5_seeding_witness :
    (1 ≤ 2) ∧
    ((seedHeap (Bins.create_empty 2) (fun y => y) [(5 : Int)]).length =
      [(5 : Int)].length ∧
    ∀ (j : Nat) (x : Int), [(5 : Int)][j]? = some x →
      (seedHeap (Bins.create_empty 2) (fun y => y) [(5 : Int)])[j]? =
        some ⟨-((fun y => y) x), j,
          ⟨2, List.replicate (2 - 1) [] ++ [[x]],
           List.replicate (2 - 1) 0 ++ [(fun y => y) x]⟩,
          List.replicate (2 - 1) 0 ++ [(fun y => y) x]⟩) :=
  ⟨by norm_num, c5_seeding 2 (fun y => y) [(5 : Int)] (by norm_num)⟩

/-- C6: under the valid preconditions no error can occur inside the merge
loop: before every iteration the heap still holds at least two entries (so
both pops succeed), every bin index used by the combine loop lies in [0, K),
and the whole run returns a partition rather than any error. -/
theorem c6_loop_total [DecidableEq α] (K : Nat) (items : List α) (v : α → Int)
    (hK : 1 ≤ K) (hne : items ≠ []) :
    (∀ k, k + 2 ≤ items.length →
      ∃ h, kkIter K k (seedHeap (Bins.create_empty K) v items, items.length) =
          .ok (h, items.length + k) ∧ 2 ≤ h.length) ∧
    (∀ i ∈ List.range K, K - i - 1 < K ∧ i < K) ∧
    (∃ p, solve K items v = .ok p) := by
  have hn1 : 1 ≤ items.length := by
    cases items with
    | nil => exact absurd rfl hne
    | cons x xs => simp
  refine ⟨?_, ?_, ?_⟩
  · intro k hk
    obtain ⟨h, hit, _, _, hlen, _, _⟩ := kk_reach K v items hK k (by omega)
    exact ⟨h, hit, by omega⟩
  · intro i hi
    have := List.mem_range.1 hi
    omega
  · obtain ⟨h, hit, _, _, hlen, _, _⟩ :=
      kk_reach K v items hK (items.length - 1) (by omega)
    have hlen1 : h.length = 1 := by omega
    obtain ⟨e, rfl⟩ := List.length_eq_one.1 hlen1
    exact ⟨e.part, kk_final hit⟩

theorem c6_loop_total_witness :
    (1 ≤ 2) ∧ ([(1 : Int), 2, 3] ≠ []) ∧
    ((∀ k, k + 2 ≤ [(1 : Int), 2, 3].length →
      ∃ h, kkIter 2 k (seedHeap (Bins.create_empty 2) (fun y => y)
            [(1 : Int), 2, 3], [(1 : Int), 2, 3].length) =
          .ok (h, [(1 : Int), 2, 3].length + k) ∧ 2 ≤ h.length) ∧
    (∀ i ∈ List.range 2, 2 - i - 1 < 2 ∧ i < 2) ∧
    (∃ p, solve 2 [(1 : Int), 2, 3] (fun y => y) = .ok p)) :=
  ⟨by norm_num, by decide,
    c6_loop_total 2 [(1 : Int), 2, 3] (fun y => y) (by norm_num) (by decide)⟩

/-- C9: along any run, no two live heap entries share a sequence number, so
Python's tuple comparison of two distinct entries is always decided by the
key or by the sequence number and never reaches the partition component; with
equal keys the entry with the smaller (earlier) sequence number compares
less, and the popped entry strictly precedes every other live entry in the
(key, sequence) order. -/
theorem c9_tuple_order [DecidableEq α] (K : Nat) (items : List α)
    (v : α → Int) (k : Nat) (h : List (HeapEntry α)) (c : Nat)
    (hreach : kkIter K k (seedHeap (Bins.create_empty K) v items,
      items.length) = .ok (h, c)) :
    (h.map HeapEntry.seq).Nodup ∧
    (∀ x ∈ h, ∀ y ∈ h, x ≠ y → ∃ o, pyCompare x y = .ok o) ∧
    (∀ x ∈ h, ∀ y ∈ h, x.key = y.key → x.seq < y.seq →
      pyCompare x y = .ok .lt) ∧
    (∀ m t, heapPop h = some (m, t) → ∀ y ∈ h, y ≠ m → entryLt m y) := by
  have hwf : SeqWF h c :=
    kkIter_seqWF (seed_seqWF (Bins.create_empty K) v items) hreach
  refine ⟨hwf.2, ?_, ?_, ?_⟩
  · intro x hx y hy hxy
    have hseq : x.seq ≠ y.seq := fun he =>
      hxy (List.inj_on_of_nodup_map hwf.2 hx hy he)
    unfold pyCompare
    split_ifs <;> first | exact ⟨_, rfl⟩ | omega
  · intro x hx y hy hkey hseq
    unfold pyCompare
    split_ifs <;> first | rfl | omega
  · intro m t hpop y hy hym
    obtain ⟨hm, _, hmin, _, _⟩ := heapPop_some_inv hpop
    have hle : entryLe m y := hmin y hy
    have hseq : m.seq ≠ y.seq := fun he =>
      hym (List.inj_on_of_nodup_map hwf.2 hy hm he.symm)
    exact entryLt_of_le_ne_seq hle hseq

theorem c9_tuple_order_witness :
    (kkIter 1 0 (seedHeap (Bins.create_empty 1) (fun y => y) [(5 : Int)],
      [(5 : Int)].length) =
      .ok ([⟨-5, 0, ⟨1, [[(5 : Int)]], [5]⟩, [5]⟩], 1)) ∧
    (([(⟨-5, 0, ⟨1, [[(5 : Int)]], [5]⟩, [5]⟩ : HeapEntry Int)].map
      HeapEntry.seq).Nodup) :=
  ⟨rfl, (c9_tuple_order 1 [(5 : Int)] (fun y => y) 0
    [⟨-5, 0, ⟨1, [[(5 : Int)]], [5]⟩, [5]⟩] 1 rfl).1⟩

/-- C10: every partition is ascending-sorted by sum at the moment it is
pushed: a seeded one-item partition is sorted because its single non-negative
value sits in the last bin after zeros, a merged partition is sorted
unconditionally because it is explicitly re-sorted before the push, and hence
in every heap state reachable during the run each live entry's partition has
ascending sums. -/
theorem c10_sorted_on_push [DecidableEq α] (K : Nat) (v : α → Int)
    (items : List α) (hK : 1 ≤ K) (hv : ∀ x ∈ items, 0 ≤ v x) :
    (∀ j x, x ∈ items → List.Pairwise (· ≤ ·)
      (seedEntry (Bins.create_empty K) v j x).part.sums) ∧
    (∀ p q : Bins α, List.Pairwise (· ≤ ·) (mergePartitions K p q).sums) ∧
    (∀ k, k + 1 ≤ items.length → ∀ h c,
      kkIter K k (seedHeap (Bins.create_empty K) v items,
        items.length) = .ok (h, c) →
      ∀ e ∈ h, List.Pairwise (· ≤ ·) e.part.sums) := by
  refine ⟨fun j x hx => seed_sorted K hK v j x (hv x hx),
    fun p q => sort_sorted _, ?_⟩
  intro k hk h c hit
  obtain ⟨h2, hit2, _, _, _, _, hsorted⟩ := kk_reach K v items hK k hk
  rw [hit2] at hit
  rw [Except.ok.injEq, Prod.mk.injEq] at hit
  rw [← hit.1]
  exact hsorted hv

theorem c10_sorted_on_push_witness :
    (1 ≤ 2) ∧ (∀ x ∈ [(1 : Int), 2], 0 ≤ (fun y => y) x) ∧
    ((∀ j x, x ∈ [(1 : Int), 2] → List.Pairwise (· ≤ ·)
      (seedEntry (Bins.create_empty 2) (fun y => y) j x).part.sums) ∧
    (∀ p q : Bins Int, List.Pairwise (· ≤ ·)
      (mergePartitions 2 p q).sums) ∧
    (∀ k, k + 1 ≤ [(1 : Int), 2].length → ∀ h c,
      kkIter 2 k (seedHeap (Bins.create_empty 2) (fun y => y) [(1 : Int), 2],
        [(1 : Int), 2].length) = .ok (h, c) →
      ∀ e ∈ h, List.Pairwise (· ≤ ·) e.part.sums)) :=
  ⟨by norm_num, by decide,
    c10_sorted_on_push 2 (fun y => y) [(1 : Int), 2] (by norm_num) (by decide)⟩

/-- C4: starting from the n seeded entries the merge loop runs exactly n-1
iterations: before each of them the reached heap state is defined, the
iteration pops the two entries minimal in stored tuple order (the two most
extreme pending partitions, since stored keys are negated priorities), pushes
one entry whose key is the negative of (max bin sum - min bin sum) of the
merged partition, and shrinks the heap by one net entry; after the n-1
iterations exactly one entry remains, and the solver returns its partition. -/
theorem c4_merge_loop [DecidableEq α] (K : Nat) (items : List α) (v : α → Int)
    (hK : 1 ≤ K) (hne : items ≠ []) :
    (∀ k h c, k + 2 ≤ items.length →
      kkIter K k (seedHeap (Bins.create_empty K) v items,
        items.length) = .ok (h, c) →
      ∃ e1 t1 e2 t2 mx mn,
        heapPop h = some (e1, t1) ∧ (∀ y ∈ h, entryLe e1 y) ∧
        heapPop t1 = some (e2, t2) ∧ (∀ y ∈ t1, entryLe e2 y) ∧
        listMax (mergePartitions K e1.part e2.part).sums = some mx ∧
        listMin (mergePartitions K e1.part e2.part).sums = some mn ∧
        kkStep K h c = .ok (t2 ++ [⟨-(mx - mn), c,
          mergePartitions K e1.part e2.part,
          (mergePartitions K e1.part e2.part).sums⟩], c + 1) ∧
        (t2 ++ [(⟨-(mx - mn), c, mergePartitions K e1.part e2.part,
          (mergePartitions K e1.part e2.part).sums⟩ : HeapEntry α)]).length + 1
          = h.length) ∧
    (∃ e, kkIter K (items.length - 1)
        (seedHeap (Bins.create_empty K) v items, items.length) =
        .ok ([e], items.length + (items.length - 1)) ∧
      solve K items v = .ok e.part) := by
  have hn1 : 1 ≤ items.length := by
    cases items with
    | nil => exact absurd rfl hne
    | cons x xs => simp
  constructor
  · intro k h c hk hit
    obtain ⟨h2, hit2, hwf, hseq, hlen, _, _⟩ := kk_reach K v items hK k (by omega)
    rw [hit2] at hit
    rw [Except.ok.injEq, Prod.mk.injEq] at hit
    obtain ⟨hh, hc⟩ := hit
    subst hh
    subst hc
    have hlen2 : 2 ≤ h2.length := by omega
    obtain ⟨e1, t1, hp1⟩ := heapPop_of_ne_nil (h := h2)
      (by intro hnil; rw [hnil] at hlen2; simp at hlen2)
    obtain ⟨hm1, ht1, hmin1, hl1, _⟩ := heapPop_some_inv hp1
    obtain ⟨e2, t2, hp2⟩ := heapPop_of_ne_nil (h := t1)
      (by intro hnil; rw [hnil] at hl1; simp at hl1; omega)
    obtain ⟨hm2, ht2, hmin2, hl2, _⟩ := heapPop_some_inv hp2
    have hwf1 : PartWF K v e1.part := hwf e1 hm1
    have hwf2 : PartWF K v e2.part := by
      refine hwf e2 ?_
      rw [ht1] at hm2
      exact List.mem_of_mem_erase hm2
    obtain ⟨hmwf, _, _⟩ := mergePartitions_wf K v e1.part e2.part hwf1 hwf2
    have hsne : (mergePartitions K e1.part e2.part).sums ≠ [] := by
      intro hnil
      have := hmwf.2.2.1
      rw [hnil] at this
      simp at this
      omega
    obtain ⟨mx, hmx⟩ := listMax_of_ne_nil _ hsne
    obtain ⟨mn, hmn⟩ := listMin_of_ne_nil _ hsne
    refine ⟨e1, t1, e2, t2, mx, mn, hp1, hmin1, hp2, hmin2, hmx, hmn, ?_, ?_⟩
    · simp only [kkStep, hp1, hp2, hmx, hmn]
    · simp only [List.length_append, List.length_cons, List.length_nil]
      omega
  · obtain ⟨h, hit, _, _, hlen, _, _⟩ :=
      kk_reach K v items hK (items.length - 1) (by omega)
    have hlen1 : h.length = 1 := by omega
    obtain ⟨e, rfl⟩ := List.length_eq_one.1 hlen1
    exact ⟨e, hit, kk_final hit⟩

theorem c4_merge_loop_witness :
    (1 ≤ 2) ∧ ([(1 : Int), 2] ≠ []) ∧
    ((∀ k h c, k + 2 ≤ [(1 : Int), 2].length →
      kkIter 2 k (seedHeap (Bins.create_empty 2) (fun y => y) [(1 : Int), 2],
        [(1 : Int), 2].length) = .ok (h, c) →
      ∃ e1 t1 e2 t2 mx mn,
        heapPop h = some (e1, t1) ∧ (∀ y ∈ h, entryLe e1 y) ∧
        heapPop t1 = some (e2, t2) ∧ (∀ y ∈ t1, entryLe e2 y) ∧
        listMax (mergePartitions 2 e1.part e2.part).sums = some mx ∧
        listMin (mergePartitions 2 e1.part e2.part).sums = some mn ∧
        kkStep 2 h c = .ok (t2 ++ [⟨-(mx - mn), c,
          mergePartitions 2 e1.part e2.part,
          (mergePartitions 2 e1.part e2.part).sums⟩], c + 1) ∧
        (t2 ++ [(⟨-(mx - mn), c, mergePartitions 2 e1.part e2.part,
          (mergePartitions 2 e1.part e2.part).sums⟩ : HeapEntry Int)]).length + 1
          = h.length) ∧
    (∃ e, kkIter 2 ([(1 : Int), 2].length - 1)
        (seedHeap (Bins.create_empty 2) (fun y => y) [(1 : Int), 2],
          [(1 : Int), 2].length) =
        .ok ([e], [(1 : Int), 2].length + ([(1 : Int), 2].length - 1)) ∧
      solve 2 [(1 : Int), 2] (fun y => y) = .ok e.part)) :=
  ⟨by norm_num, by decide,
    c4_merge_loop 2 [(1 : Int), 2] (fun y => y) (by norm_num) (by decide)⟩

/-! ### Relational execution and determinism -/

lemma popSpec_eq_pop [DecidableEq α] {h t : List (HeapEntry α)} {e : HeapEntry α}
    (hnd : (h.map HeapEntry.seq).Nodup) (hps : PopSpec h e t) :
    heapPop h = some (e, t) := by
  obtain ⟨hm, hmin, ht⟩ := hps
  subst ht
  exact heapPop_of_min hnd hm hmin

lemma stepRel_eq_step [DecidableEq α] {K : Nat}
    {s s' : List (HeapEntry α) × Nat} (hnd : SeqWF s.1 s.2)
    (hsr : StepRel K s s') : kkStep K s.1 s.2 = .ok s' := by
  obtain ⟨e1, t1, e2, t2, hp1, hp2, mx, mn, hmx, hmn, hh, hc⟩ := hsr
  have hpop1 : heapPop s.1 = some (e1, t1) := popSpec_eq_pop hnd.2 hp1
  have hnd1 : (t1.map HeapEntry.seq).Nodup := by
    have := hp1.2.2
    rw [this]
    exact ((List.erase_sublist e1 s.1).map HeapEntry.seq).nodup hnd.2
  have hpop2 : heapPop t1 = some (e2, t2) := popSpec_eq_pop hnd1 hp2
  have hcalc : kkStep K s.1 s.2 =
      .ok (t2 ++ [⟨-(mx - mn), s.2, mergePartitions K e1.part e2.part,
        (mergePartitions K e1.part e2.part).sums⟩], s.2 + 1) := by
    simp only [kkStep, hpop1, hpop2, hmx, hmn]
  rw [hcalc]
  cases s' with
  | mk h' c' =>
    simp only at hh hc
    rw [hh, hc]

lemma runRel_eq_iter [DecidableEq α] {K k : Nat}
    {s s' : List (HeapEntry α) × Nat} (hnd : SeqWF s.1 s.2)
    (hrr : RunRel K k s s') : kkIter K k s = .ok s' := by
  induction k generalizing s with
  | zero =>
    have hss : s' = s := hrr
    rw [hss]
    rfl
  | succ k ih =>
    obtain ⟨sm, hstep, hrun⟩ := hrr
    have hs := stepRel_eq_step hnd hstep
    have hndm : SeqWF sm.1 sm.2 := (kkStep_seqWF hnd hs).1
    show (match kkStep K s.1 s.2 with
          | Except.error e => Except.error e
          | Except.ok st' => kkIter K k st') = _
    rw [hs]
    exact ih hndm hrun

/-- C8: the solver is deterministic: any two complete executions of the
algorithm on the same items, in the same order, with the same bin count and
value function - where each pop is allowed to return any minimal entry of the
priority structure - produce the same final partition, thanks to the unique
sequence numbers that break all ties. -/
theorem c8_determinism [DecidableEq α] (K : Nat) (items : List α)
    (v : α → Int) (r1 r2 : Bins α)
    (h1 : ExecRel K items v r1) (h2 : ExecRel K items v r2) : r1 = r2 := by
  obtain ⟨ha, ca, ea, ta, hrun1, hcons1, hr1⟩ := h1
  obtain ⟨hb, cb, eb, tb, hrun2, hcons2, hr2⟩ := h2
  have hseed : SeqWF (seedHeap (Bins.create_empty K) v items) items.length :=
    seed_seqWF (Bins.create_empty K) v items
  have hi1 := runRel_eq_iter hseed hrun1
  have hi2 := runRel_eq_iter hseed hrun2
  rw [hi1] at hi2
  rw [Except.ok.injEq, Prod.mk.injEq] at hi2
  obtain ⟨hhab, -⟩ := hi2
  subst hhab
  rw [hcons1] at hcons2
  rw [List.cons.injEq] at hcons2
  obtain ⟨heab, htab⟩ := hcons2
  rw [hr1, hr2, heab, htab]

theorem c8_determinism_witness :
    ExecRel 1 [(5 : Int)] (fun y => y) (⟨1, [[(5 : Int)]], [5]⟩ : Bins Int) ∧
    (⟨1, [[(5 : Int)]], [5]⟩ : Bins Int) = ⟨1, [[(5 : Int)]], [5]⟩ := by
  have hx : ExecRel 1 [(5 : Int)] (fun y => y)
      (⟨1, [[(5 : Int)]], [5]⟩ : Bins Int) :=
    ⟨[⟨-5, 0, ⟨1, [[(5 : Int)]], [5]⟩, [5]⟩], 1,
     ⟨-5, 0, ⟨1, [[(5 : Int)]], [5]⟩, [5]⟩, [], rfl, rfl, rfl⟩
  exact ⟨hx, c8_determinism 1 [(5 : Int)] (fun y => y) _ _ hx hx⟩

/-- C7: for every pair of distinct non-negative values a and b, solving with
numBins = 2, items [a, b], and the identity value function yields the perfect
split: each item alone in one bin, the bins ascending by sum, so the two bin
sums are exactly a and b. -/
theorem c7_two_item_split (a b : Int) (_ha : 0 ≤ a) (_hb : 0 ≤ b) (hab : a ≠ b) :
    (a < b ∧ solve 2 [a, b] (fun y => y) = .ok ⟨2, [[a], [b]], [a, b]⟩) ∨
    (b < a ∧ solve 2 [a, b] (fun y => y) = .ok ⟨2, [[b], [a]], [b, a]⟩) := by
  rcases lt_or_gt_of_ne hab with h | h
  · left
    refine ⟨h, ?_⟩
    have hseed : seedHeap (Bins.create_empty 2) (fun y => y) [a, b] =
        [⟨-a, 0, ⟨2, [[], [a]], [0, a]⟩, [0, a]⟩,
         ⟨-b, 1, ⟨2, [[], [b]], [0, b]⟩, [0, b]⟩] := by
      show seedEntry (Bins.create_empty 2) (fun y => y) 0 a ::
        seedEntry (Bins.create_empty 2) (fun y => y) 1 b :: [] = _
      rw [seedEntry_create 2 (by norm_num), seedEntry_create 2 (by norm_num)]
      rfl
    have hne : (⟨-a, 0, ⟨2, [[], [a]], [0, a]⟩, [0, a]⟩ : HeapEntry Int) ≠
        ⟨-b, 1, ⟨2, [[], [b]], [0, b]⟩, [0, b]⟩ := by
      intro hcc
      rw [HeapEntry.mk.injEq] at hcc
      exact absurd hcc.2.1 (by norm_num)
    have hlt : entryLt (⟨-b, 1, ⟨2, [[], [b]], [0, b]⟩, [0, b]⟩ : HeapEntry Int)
        ⟨-a, 0, ⟨2, [[], [a]], [0, a]⟩, [0, a]⟩ := Or.inl (by simp; omega)
    have hpop1 : heapPop [(⟨-a, 0, ⟨2, [[], [a]], [0, a]⟩, [0, a]⟩ : HeapEntry Int),
        ⟨-b, 1, ⟨2, [[], [b]], [0, b]⟩, [0, b]⟩] =
        some (⟨-b, 1, ⟨2, [[], [b]], [0, b]⟩, [0, b]⟩,
          [⟨-a, 0, ⟨2, [[], [a]], [0, a]⟩, [0, a]⟩]) := by
      show some (heapMin _ _, _) = _
      rw [show heapMin (⟨-a, 0, ⟨2, [[], [a]], [0, a]⟩, [0, a]⟩ : HeapEntry Int)
          [⟨-b, 1, ⟨2, [[], [b]], [0, b]⟩, [0, b]⟩] =
          ⟨-b, 1, ⟨2, [[], [b]], [0, b]⟩, [0, b]⟩ from by
        simp only [heapMin, if_pos hlt]]
      rw [List.erase_cons, if_neg (by simp [hne.symm]), List.erase_cons_head]
    have hpop2 : heapPop [(⟨-a, 0, ⟨2, [[], [a]], [0, a]⟩, [0, a]⟩ : HeapEntry Int)] =
        some (⟨-a, 0, ⟨2, [[], [a]], [0, a]⟩, [0, a]⟩, []) := by
      show some (heapMin _ [], _) = _
      rw [show heapMin (⟨-a, 0, ⟨2, [[], [a]], [0, a]⟩, [0, a]⟩ : HeapEntry Int) [] =
        ⟨-a, 0, ⟨2, [[], [a]], [0, a]⟩, [0, a]⟩ from rfl]
      rw [List.erase_cons_head]
    have hcomb : combineAll 2 (⟨2, [[], [b]], [0, b]⟩ : Bins Int) ⟨2, [[], [a]], [0, a]⟩ =
        ⟨2, [[a], [b]], [0 + a, b + 0]⟩ := rfl
    have hmerge : mergePartitions 2 (⟨2, [[], [b]], [0, b]⟩ : Bins Int) ⟨2, [[], [a]], [0, a]⟩ =
        ⟨2, [[a], [b]], [a, b]⟩ := by
      show (combineAll 2 (⟨2, [[], [b]], [0, b]⟩ : Bins Int) ⟨2, [[], [a]], [0, a]⟩).sort = _
      rw [hcomb]
      show Bins.mk 2 ((sortPairs (List.zip [0 + a, b + 0] [[a], [b]])).map Prod.snd)
        ((sortPairs (List.zip [0 + a, b + 0] [[a], [b]])).map Prod.fst) = _
      rw [show List.zip [0 + a, b + 0] [[a], [b]] = [(0 + a, [a]), (b + 0, [b])] from rfl]
      rw [show sortPairs [((0 : Int) + a, [a]), (b + 0, [b])] =
          insertPair (0 + a, [a]) [(b + 0, [b])] from rfl]
      rw [show insertPair ((0 : Int) + a, [a]) [(b + 0, [b])] =
          [(0 + a, [a]), (b + 0, [b])] from by
        simp only [insertPair]
        rw [if_pos (by omega)]]
      exact binsEq rfl rfl (by norm_num)
    show kk (Bins.create_empty 2) [a, b] (fun y => y) = _
    unfold kk
    rw [show ((Bins.create_empty 2 : Bins Int)).num = 2 from rfl, hseed]
    rw [show ([a, b] : List Int).length - 1 = 1 from rfl,
      show ([a, b] : List Int).length = 2 from rfl]
    simp only [kkIter]
    simp only [kkStep, hpop1, hpop2, hmerge, listMax, listMin]
    rfl
  · right
    refine ⟨h, ?_⟩
    have hseed : seedHeap (Bins.create_empty 2) (fun y => y) [a, b] =
        [⟨-a, 0, ⟨2, [[], [a]], [0, a]⟩, [0, a]⟩,
         ⟨-b, 1, ⟨2, [[], [b]], [0, b]⟩, [0, b]⟩] := by
      show seedEntry (Bins.create_empty 2) (fun y => y) 0 a ::
        seedEntry (Bins.create_empty 2) (fun y => y) 1 b :: [] = _
      rw [seedEntry_create 2 (by norm_num), seedEntry_create 2 (by norm_num)]
      rfl
    have hnlt : ¬ entryLt (⟨-b, 1, ⟨2, [[], [b]], [0, b]⟩, [0, b]⟩ : HeapEntry Int)
        ⟨-a, 0, ⟨2, [[], [a]], [0, a]⟩, [0, a]⟩ := by
      intro hc
      rcases hc with hc | hc
      · simp at hc
        omega
      · exact absurd hc.2 (by norm_num)
    have hpop1 : heapPop [(⟨-a, 0, ⟨2, [[], [a]], [0, a]⟩, [0, a]⟩ : HeapEntry Int),
        ⟨-b, 1, ⟨2, [[], [b]], [0, b]⟩, [0, b]⟩] =
        some (⟨-a, 0, ⟨2, [[], [a]], [0, a]⟩, [0, a]⟩,
          [⟨-b, 1, ⟨2, [[], [b]], [0, b]⟩, [0, b]⟩]) := by
      show some (heapMin _ _, _) = _
      rw [show heapMin (⟨-a, 0, ⟨2, [[], [a]], [0, a]⟩, [0, a]⟩ : HeapEntry Int)
          [⟨-b, 1, ⟨2, [[], [b]], [0, b]⟩, [0, b]⟩] =
          ⟨-a, 0, ⟨2, [[], [a]], [0, a]⟩, [0, a]⟩ from by
        simp only [heapMin, if_neg hnlt]]
      rw [List.erase_cons_head]
    have hpop2 : heapPop [(⟨-b, 1, ⟨2, [[], [b]], [0, b]⟩, [0, b]⟩ : HeapEntry Int)] =
        some (⟨-b, 1, ⟨2, [[], [b]], [0, b]⟩, [0, b]⟩, []) := by
      show some (heapMin _ [], _) = _
      rw [show heapMin (⟨-b, 1, ⟨2, [[], [b]], [0, b]⟩, [0, b]⟩ : HeapEntry Int) [] =
        ⟨-b, 1, ⟨2, [[], [b]], [0, b]⟩, [0, b]⟩ from rfl]
      rw [List.erase_cons_head]
    have hcomb : combineAll 2 (⟨2, [[], [a]], [0, a]⟩ : Bins Int) ⟨2, [[], [b]], [0, b]⟩ =
        ⟨2, [[b], [a]], [0 + b, a + 0]⟩ := rfl
    have hmerge : mergePartitions 2 (⟨2, [[], [a]], [0, a]⟩ : Bins Int) ⟨2, [[], [b]], [0, b]⟩ =
        ⟨2, [[b], [a]], [b, a]⟩ := by
      show (combineAll 2 (⟨2, [[], [a]], [0, a]⟩ : Bins Int) ⟨2, [[], [b]], [0, b]⟩).sort = _
      rw [hcomb]
      show Bins.mk 2 ((sortPairs (List.zip [0 + b, a + 0] [[b], [a]])).map Prod.snd)
        ((sortPairs (List.zip [0 + b, a + 0] [[b], [a]])).map Prod.fst) = _
      rw [show List.zip [0 + b, a + 0] [[b], [a]] = [(0 + b, [b]), (a + 0, [a])] from rfl]
      rw [show sortPairs [((0 : Int) + b, [b]), (a + 0, [a])] =
          insertPair (0 + b, [b]) [(a + 0, [a])] from rfl]
      rw [show insertPair ((0 : Int) + b, [b]) [(a + 0, [a])] =
          [(0 + b, [b]), (a + 0, [a])] from by
        simp only [insertPair]
        rw [if_pos (by omega)]]
      exact binsEq rfl rfl (by norm_num)
    show kk (Bins.create_empty 2) [a, b] (fun y => y) = _
    unfold kk
    rw [show ((Bins.create_empty 2 : Bins Int)).num = 2 from rfl, hseed]
    rw [show ([a, b] : List Int).length - 1 = 1 from rfl,
      show ([a, b] : List Int).length = 2 from rfl]
    simp only [kkIter]
    simp only [kkStep, hpop1, hpop2, hmerge, listMax, listMin]
    rfl

theorem c7_two_item_split_witness :
    (0 ≤ (1 : Int)) ∧ (0 ≤ (2 : Int)) ∧ ((1 : Int) ≠ 2) ∧
    (((1 : Int) < 2 ∧ solve 2 [(1 : Int), 2] (fun y => y) =
        .ok ⟨2, [[1], [2]], [1, 2]⟩) ∨
     ((2 : Int) < 1 ∧ solve 2 [(1 : Int), 2] (fun y => y) =
        .ok ⟨2, [[2], [1]], [2, 1]⟩)) :=
  ⟨by norm_num, by norm_num, by norm_num,
    c7_two_item_split 1 2 (by norm_num) (by norm_num) (by norm_num)⟩

end KK
